import Mathlib

/-!
Verification of the multi-source translation-candidate aggregation engine
of `moses/TranslationModel/PhraseDictionaryGroup.cpp` and of the
construction check of
`moses/TranslationModel/RuleTable/PhraseDictionaryALSuffixArray.cpp`,
as a shallow embedding in Lean 4.

Scores are modelled as exact rationals (`ℚ`): the algorithms only copy
score values between vectors and never perform arithmetic on them, so the
embedding is faithful for any choice of numeric carrier.
-/

namespace Moses

/-- An "extra" (non-dense) score-cache entry of a target phrase:
`TargetPhrase::ScoreCache_t` maps a producer identifier to an opaque
score blob (`std::vector<float>`).  Keys are modelled as strings, blobs as
rational lists. -/
abbrev ScoreCache := List (String × List ℚ)

/-- One candidate target phrase as returned by a member model:
its structural-equality key (surface words + alignment), the raw scores
that `GetScoreBreakdown().GetScoresForProducer(&pd)` yields for the
producing member (contractually `K_i` values), and its extra score-cache
entries (`GetExtraScores()`). -/
structure Candidate where
  key : String
  scores : List ℚ
  extras : ScoreCache
deriving DecidableEq, Repr

/-- A member phrase dictionary as seen by one `CreateTargetPhraseCollection`
call: its score-component count `K_i` and the (possibly NULL) candidate
list its `GetTargetPhraseCollectionLEGACY` returns for the fixed source
phrase of that call. -/
structure Member where
  numScoreComponents : Nat
  result : Option (List Candidate)
deriving DecidableEq, Repr

/-- The merged data held for one candidate key during aggregation: the
deep-copied phrase with its accumulated extra score-cache entries, and the
`K`-wide score vector from the `allScores` map.  The copy also undergoes
`InvertDenseFeatures` / `EvaluateInIsolation` / `ZeroDenseFeatures` on the
members' dense segments of its breakdown; those operate on
`ScoreComponentCollection` internals outside the excerpt and are
independent of the merged vector, the extras and the key, which are the
observables modelled here. -/
structure Entry where
  extras : ScoreCache
  vec : List ℚ
deriving DecidableEq, Repr

/-- The pending candidate set / result in insertion order: the C++ code
keeps `allPhrases` (insertion order) plus the unordered map `allScores`;
since each key is inserted at most once, a single association list in
insertion order represents both. -/
abbrev PhraseMap := List (String × Entry)

/-- `SetExtraScores(key, value)` on the score cache: insert-or-assign
semantics of `m_cached_scores[key] = value`. -/
def setExtra : ScoreCache → String → List ℚ → ScoreCache
  | [], k, v => [(k, v)]
  | (k', v') :: rest, k, v =>
      if k' = k then (k, v) :: rest else (k', v') :: setExtra rest k v

/-- The merge loop `BOOST_FOREACH(... pair, targetPhrase->GetExtraScores())
phrase->SetExtraScores(pair.first, pair.second)`. -/
def mergeExtras (ex : ScoreCache) (incoming : ScoreCache) : ScoreCache :=
  incoming.foldl (fun acc p => setExtra acc p.1 p.2) ex

/-- The inner score-copy loop
`for (j = 0; j < pd.GetNumScoreComponents(); ++j) scores[offset+j] = raw_scores[j]`.
Members contractually supply exactly `ki` raw scores; `getD` with default
`0` stands for the in-bounds read. -/
def writeSegment (vec : List ℚ) (offset ki : Nat) (raw : List ℚ) : List ℚ :=
  (List.range ki).foldl (fun v j => v.set (offset + j) (raw.getD j 0)) vec

/-- Look up a candidate key in the pending set (`allScores.find`). -/
def findEntry : PhraseMap → String → Option Entry
  | [], _ => none
  | (k', e) :: rest, k => if k' = k then some e else findEntry rest k

/-- Replace the entry stored under key `k` (mutation through the map
iterator / the `scores` reference). -/
def updateEntry (st : PhraseMap) (k : String) (f : Entry → Entry) : PhraseMap :=
  st.map (fun p => if p.1 = k then (k, f p.2) else p)

/-- The body of `BOOST_FOREACH(const TargetPhrase* targetPhrase, *ret_raw)`
in `PhraseDictionaryGroup::CreateTargetPhraseCollection`, for member index
`i` with running `offset` and component count `ki`:
new keys are deep-copied and seeded with the default score vector (unless
discarded by restrict mode for `i > 0`, via `continue`, which skips the
extras merge and the segment write as well); existing keys get the
incoming extra scores merged in; in either surviving branch the member's
raw scores overwrite positions `[offset, offset + ki)`. -/
def processCandidate (restrict : Bool) (defaults : List ℚ) (i offset ki : Nat)
    (st : PhraseMap) (c : Candidate) : PhraseMap :=
  match findEntry st c.key with
  | none =>
      if restrict ∧ i > 0 then st
      else st ++ [(c.key, ⟨c.extras, writeSegment defaults offset ki c.scores⟩)]
  | some _ =>
      updateEntry st c.key (fun e =>
        ⟨mergeExtras e.extras c.extras, writeSegment e.vec offset ki c.scores⟩)

/-- Processing of one member inside the `for (i = 0; i < m_numModels; ++i)`
loop: a NULL collection (`ret_raw == NULL`) contributes nothing, otherwise
each candidate is processed in order. -/
def processMember (restrict : Bool) (defaults : List ℚ) (i offset : Nat)
    (m : Member) (st : PhraseMap) : PhraseMap :=
  match m.result with
  | none => st
  | some cands =>
      cands.foldl (processCandidate restrict defaults i offset m.numScoreComponents) st

/-- The member loop of `CreateTargetPhraseCollection`: members are consulted
in configured order, `offset` advances by `pd.GetNumScoreComponents()`
after every member, whether or not it produced candidates. -/
def runMembers (restrict : Bool) (defaults : List ℚ) :
    List Member → Nat → Nat → PhraseMap → PhraseMap
  | [], _, _, st => st
  | m :: rest, i, offset, st =>
      runMembers restrict defaults rest (i + 1) (offset + m.numScoreComponents)
        (processMember restrict defaults i offset m st)

/-- `PhraseDictionaryGroup::CreateTargetPhraseCollection` for one source
phrase: the final `BOOST_FOREACH(TargetPhrase* phrase, allPhrases)` loop
assigns each entry its accumulated `K`-wide vector
(`Assign(this, ...second.second)`) and re-evaluates the phrase in
isolation; the returned collection is `allPhrases` in insertion order with
those vectors, exactly the association list built by the member loop. -/
def createTargetPhraseCollection (restrict : Bool) (defaults : List ℚ)
    (members : List Member) : PhraseMap :=
  runMembers restrict defaults members 0 0 []

end Moses

namespace Moses

/-- Keys of the candidates of a member (empty for a NULL result). -/
def memberKeys (m : Member) : List String :=
  (m.result.getD []).map Candidate.key

/-- Keys the first (base) member proposes; `[]` for an empty member list. -/
def member0Keys : List Member → List String
  | [] => []
  | m :: _ => memberKeys m

/-- Total score-component count of a list of members
(the final value of the running `offset`). -/
def sumK (ms : List Member) : Nat :=
  (ms.map Member.numScoreComponents).sum

/-- A phrase dictionary registered in `PhraseDictionary::GetColl()`:
its `GetScoreProducerDescription()` and `GetNumScoreComponents()`. -/
structure RegisteredPD where
  description : String
  numScoreComponents : Nat
deriving DecidableEq, Repr

/-- The configuration of a `PhraseDictionaryGroup` as produced by
`SetParameter`: the comma-separated `members` names, the declared total
score count `m_numScoreComponents`, `restrict`, and the optional
`default-scores`. -/
structure GroupParams where
  memberPDStrs : List String
  numScoreComponents : Nat
  restrict : Bool
  haveDefaultScores : Bool
  defaultScores : List ℚ
deriving DecidableEq, Repr

/-- The immutable state a successful `Load` leaves behind: the resolved
member dictionaries `m_memberPDs` and the default score vector
`m_defaultScores`. -/
structure LoadedGroup where
  memberPDs : List RegisteredPD
  defaultScores : List ℚ
deriving DecidableEq, Repr

/-- The member-location loop of `PhraseDictionaryGroup::Load`: for each
configured name, every dictionary in the global collection whose
description equals the name is appended to `m_memberPDs`;
`UTIL_THROW_IF2(!pdFound, ...)` fires when a name matches nothing. -/
def resolveMembers (coll : List RegisteredPD) :
    List String → Except String (List RegisteredPD)
  | [] => .ok []
  | n :: rest =>
      let found := coll.filter (fun pd => pd.description == n)
      if found.isEmpty then
        .error ("Could not find member phrase table " ++ n)
      else
        match resolveMembers coll rest with
        | .error e => .error e
        | .ok ms => .ok (found ++ ms)

/-- `PhraseDictionaryGroup::Load`: resolve member names, check that the
members score-component counts sum to the declared
`m_numScoreComponents`, then validate the configured default scores or
synthesize the all-zero vector. -/
def Load (coll : List RegisteredPD) (p : GroupParams) : Except String LoadedGroup :=
  match resolveMembers coll p.memberPDStrs with
  | .error e => .error e
  | .ok ms =>
      if (ms.map RegisteredPD.numScoreComponents).sum ≠ p.numScoreComponents then
        .error "Total number of member model scores is unequal to specified number of scores"
      else if p.haveDefaultScores then
        if p.defaultScores.length ≠ p.numScoreComponents then
          .error "Number of specified default scores is unequal to number of member model scores"
        else .ok ⟨ms, p.defaultScores⟩
      else .ok ⟨ms, List.replicate p.numScoreComponents 0⟩

/-- A result list registered with the sentence cache. -/
abbrev ResultList := PhraseMap

/-- The sentence-scoped cache `m_phraseCache` of result lists. -/
abbrev PhraseCache := List ResultList

/-- `PhraseDictionaryGroup::CacheForCleanup`: append the result list to the
sentence cache. -/
def cacheForCleanup (cache : PhraseCache) (tpc : ResultList) : PhraseCache :=
  cache ++ [tpc]

/-- `PhraseDictionaryGroup::CleanUpComponentModels`: the loop
`for (i = 0; i < m_numModels; ++i) m_memberPDs[i]->CleanUpAfterSentenceProcessing(source)`,
modelled as the trace of member indices whose cleanup hook is invoked, in
invocation order. -/
def cleanUpComponentModels (numModels : Nat) : List Nat :=
  List.range numModels

/-- `PhraseDictionaryGroup::CleanUpAfterSentenceProcessing`:
`GetPhraseCache().clear()` (releasing the shared ownership the cache holds
in every registered list), then `CleanUpComponentModels(source)`.  Returns
the new cache contents and the member-cleanup invocation trace. -/
def cleanUpAfterSentenceProcessing (numModels : Nat) (cache : PhraseCache) :
    PhraseCache × List Nat :=
  (([] : PhraseCache), cleanUpComponentModels numModels)

/-- `GetTargetPhraseCollectionLEGACY(const Phrase&)`, the legacy entry
point without a translation task: it executes
`UTIL_THROW2("Dont call me without the translation task.")`
unconditionally, returning no collection and leaving the cache untouched. -/
def getTargetPhraseCollectionLEGACYNoContext (src : String) (cache : PhraseCache) :
    Except String (ResultList × PhraseCache) :=
  .error "Dont call me without the translation task."

/-- Modelled from the spec: `TargetPhraseCollection::NthElement` is not
part of the excerpt.  Per the spec (pruning, section 4.2) it partially
orders the result list in place by descending score so that the top
`tableLimit` entries are in correct relative order, and all entries remain
present.  The ordering key (the total score from external feature
evaluation) lies outside the excerpt, and no claim below concerns element
order, so the in-place reordering is modelled as preserving the list. -/
def nthElement (tableLimit : Nat) (l : ResultList) : ResultList := l

/-- `GetTargetPhraseCollectionLEGACY(ttask, src)`, the context-taking
lookup: build the merged collection, partially sort it for later pruning
(`NthElement(m_tableLimit)`), register it with the sentence cache
(`CacheForCleanup`) and return it.  The returned shared pointer is never
NULL (`new TargetPhraseCollection` in `CreateTargetPhraseCollection`),
modelled by `some`. -/
def getTargetPhraseCollectionLEGACYWithContext (restrict : Bool)
    (defaults : List ℚ) (members : List Member) (tableLimit : Nat)
    (cache : PhraseCache) : Option ResultList × PhraseCache :=
  let ret := nthElement tableLimit (createTargetPhraseCollection restrict defaults members)
  (some ret, cacheForCleanup cache ret)

/-- Constructor of `PhraseDictionaryALSuffixArray`: it throws
`runtime_error("Suffix array implementation is not threadsafe")` when
`StaticData::Instance().ThreadCount() > 1`, then executes
`CHECK(m_args.size() == 0)` (abort on leftover unparsed arguments);
otherwise construction succeeds.  Grammar loading happens later, in
`InitializeForInput`, never in the constructor. -/
def constructALSuffixArray (threadCount numLeftoverArgs : Nat) : Except String Unit :=
  if threadCount > 1 then .error "Suffix array implementation is not threadsafe"
  else if numLeftoverArgs ≠ 0 then .error "CHECK failed: m_args.size() == 0"
  else .ok ()

end Moses

/-- C1: Scenario B. Two members with `K_0 = K_1 = 1`, restrict disabled,
all-zero defaults.  Member 0 returns "x" = [0.5]; member 1 returns
"x" = [0.9] and "y" = [0.3].  The lookup returns exactly "x" with merged
vector [0.5, 0.9] and "y" with [0, 0.3]: each member's segment holds that
member's raw scores, and segments of members that did not produce the
entry keep the default values. -/
theorem claim1_scenarioB :
    Moses.createTargetPhraseCollection false [0, 0]
      [⟨1, some [⟨"x", [1/2], []⟩]⟩,
       ⟨1, some [⟨"x", [9/10], []⟩, ⟨"y", [3/10], []⟩]⟩]
    = [("x", ⟨[], [1/2, 9/10]⟩), ("y", ⟨[], [0, 3/10]⟩)] := by
  rfl

namespace Moses

theorem findEntry_eq_none_iff (st : PhraseMap) (k : String) :
    findEntry st k = none ↔ k ∉ st.map Prod.fst := by
  induction st with
  | nil => simp [findEntry]
  | cons p rest ih =>
    obtain ⟨k', e⟩ := p
    by_cases h : k' = k
    · subst h
      simp [findEntry]
    · rw [findEntry, if_neg h]
      simp only [List.map_cons, List.mem_cons]
      constructor
      · intro hnone hmem
        rcases hmem with h1 | h1
        · exact h h1.symm
        · exact (ih.mp hnone) h1
      · intro hnot
        exact ih.mpr fun h1 => hnot (Or.inr h1)

theorem keys_updateEntry (st : PhraseMap) (k : String) (f : Entry → Entry) :
    (updateEntry st k f).map Prod.fst = st.map Prod.fst := by
  induction st with
  | nil => rfl
  | cons p rest ih =>
    by_cases h : p.1 = k <;> simp [updateEntry, h] <;>
      simpa [updateEntry] using ih

theorem keys_processCandidate (r : Bool) (d : List ℚ) (i offset ki : Nat)
    (st : PhraseMap) (c : Candidate) :
    (processCandidate r d i offset ki st c).map Prod.fst = st.map Prod.fst ∨
    (processCandidate r d i offset ki st c).map Prod.fst
      = st.map Prod.fst ++ [c.key] := by
  unfold processCandidate
  cases h : findEntry st c.key with
  | none =>
    by_cases hr : r = true ∧ i > 0
    · simp [hr]
    · simp [hr]
  | some e => simp [keys_updateEntry]

theorem keys_processCandidate_restrict_pos (d : List ℚ) (i offset ki : Nat)
    (st : PhraseMap) (c : Candidate) (hi : 0 < i) :
    (processCandidate true d i offset ki st c).map Prod.fst = st.map Prod.fst := by
  unfold processCandidate
  cases h : findEntry st c.key with
  | none => simp [hi]
  | some e => simp [keys_updateEntry]

theorem keys_foldl_processCandidate_restrict_pos (d : List ℚ)
    (i offset ki : Nat) (cands : List Candidate) (st : PhraseMap) (hi : 0 < i) :
    ((cands.foldl (processCandidate true d i offset ki) st).map Prod.fst)
      = st.map Prod.fst := by
  induction cands generalizing st with
  | nil => rfl
  | cons c rest ih =>
    rw [List.foldl_cons, ih, keys_processCandidate_restrict_pos d i offset ki st c hi]

theorem keys_processMember_restrict_pos (d : List ℚ) (i offset : Nat)
    (m : Member) (st : PhraseMap) (hi : 0 < i) :
    (processMember true d i offset m st).map Prod.fst = st.map Prod.fst := by
  unfold processMember
  cases m.result with
  | none => rfl
  | some cands => exact keys_foldl_processCandidate_restrict_pos d i offset _ cands st hi

theorem keys_runMembers_restrict_pos (d : List ℚ) (ms : List Member)
    (i offset : Nat) (st : PhraseMap) (hi : 0 < i) :
    (runMembers true d ms i offset st).map Prod.fst = st.map Prod.fst := by
  induction ms generalizing i offset st with
  | nil => rfl
  | cons m rest ih =>
    rw [runMembers, ih (i + 1) (offset + m.numScoreComponents) _ (Nat.succ_pos i),
      keys_processMember_restrict_pos d i offset m st hi]

theorem keys_foldl_processCandidate_subset (r : Bool) (d : List ℚ)
    (i offset ki : Nat) (cands : List Candidate) (st : PhraseMap) (k : String) :
    k ∈ ((cands.foldl (processCandidate r d i offset ki) st).map Prod.fst) →
    k ∈ st.map Prod.fst ∨ k ∈ cands.map Candidate.key := by
  induction cands generalizing st with
  | nil => exact fun hk => Or.inl hk
  | cons c rest ih =>
    intro hk
    rw [List.foldl_cons] at hk
    rcases ih (processCandidate r d i offset ki st c) hk with h | h
    · rcases keys_processCandidate r d i offset ki st c with he | he
      · rw [he] at h
        exact Or.inl h
      · rw [he] at h
        rcases List.mem_append.mp h with h1 | h1
        · exact Or.inl h1
        · right
          simp only [List.mem_singleton] at h1
          simp [h1]
    · right
      simp [h]

end Moses

/-- C2: with restrict mode enabled, a candidate whose key is first proposed
by a member with index `i > 0` is fully discarded: processing it leaves
the pending candidate set entirely unchanged (so no extra score-cache
entry of it is merged anywhere and none of its raw scores is written into
any score vector), and every key appearing in the returned result was
introduced by member 0. -/
theorem claim2_restrict_discards_new_candidates :
    (∀ (d : List ℚ) (i offset ki : Nat) (st : Moses.PhraseMap) (c : Moses.Candidate),
        0 < i → c.key ∉ st.map Prod.fst →
        Moses.processCandidate true d i offset ki st c = st) ∧
    (∀ (d : List ℚ) (ms : List Moses.Member) (k : String),
        k ∈ (Moses.createTargetPhraseCollection true d ms).map Prod.fst →
        k ∈ Moses.member0Keys ms) := by
  constructor
  · intro d i offset ki st c hi hnew
    have h : Moses.findEntry st c.key = none :=
      (Moses.findEntry_eq_none_iff st c.key).mpr hnew
    simp [Moses.processCandidate, h, hi]
  · intro d ms k hk
    cases ms with
    | nil => simpa [Moses.createTargetPhraseCollection, Moses.runMembers] using hk
    | cons m rest =>
      rw [Moses.createTargetPhraseCollection, Moses.runMembers,
        Moses.keys_runMembers_restrict_pos d rest 1 _ _ Nat.one_pos] at hk
      cases hm : m.result with
      | none =>
        rw [Moses.processMember, hm] at hk
        simp at hk
      | some cands =>
        rw [Moses.processMember, hm] at hk
        rcases Moses.keys_foldl_processCandidate_subset true d 0 0
            m.numScoreComponents cands [] k hk with h | h
        · simp at h
        · simpa [Moses.member0Keys, Moses.memberKeys, hm] using h

/-- Witness for C2 at concrete inputs: a candidate "y" proposed first by
member 1 under restrict leaves the state unchanged, and in Scenario C the
key "x" of the result was introduced by member 0. -/
theorem claim2_restrict_discards_new_candidates_witness :
    Moses.processCandidate true [0, 0] 1 1 1
        [("x", ⟨[], [0, 0]⟩)] ⟨"y", [5], []⟩ = [("x", ⟨[], [0, 0]⟩)] ∧
    "x" ∈ Moses.member0Keys
        [⟨1, some [⟨"x", [1], []⟩]⟩, ⟨1, some [⟨"x", [2], []⟩, ⟨"y", [3], []⟩]⟩] := by
  constructor
  · exact claim2_restrict_discards_new_candidates.1 [0, 0] 1 1 1
      [("x", ⟨[], [0, 0]⟩)] ⟨"y", [5], []⟩ Nat.one_pos (by decide)
  · exact claim2_restrict_discards_new_candidates.2 [0, 0]
      [⟨1, some [⟨"x", [1], []⟩]⟩, ⟨1, some [⟨"x", [2], []⟩, ⟨"y", [3], []⟩]⟩]
      "x" (by decide)

namespace Moses

theorem setExtra_of_not_mem (ex : ScoreCache) (k : String) (v : List ℚ)
    (h : k ∉ ex.map Prod.fst) : setExtra ex k v = ex ++ [(k, v)] := by
  induction ex with
  | nil => rfl
  | cons p rest ih =>
    obtain ⟨k', v'⟩ := p
    simp only [List.map_cons, List.mem_cons] at h
    push_neg at h
    rw [setExtra, if_neg fun hh => h.1 hh.symm, ih h.2, List.cons_append]

theorem mergeExtras_of_disjoint (ex incoming : ScoreCache)
    (hdisj : ∀ p ∈ incoming, p.1 ∉ ex.map Prod.fst)
    (hnodup : (incoming.map Prod.fst).Nodup) :
    mergeExtras ex incoming = ex ++ incoming := by
  induction incoming generalizing ex with
  | nil => simp [mergeExtras]
  | cons p rest ih =>
    simp only [List.map_cons, List.nodup_cons] at hnodup
    have hp : p.1 ∉ ex.map Prod.fst := hdisj p (List.mem_cons_self p rest)
    have step : mergeExtras ex (p :: rest) = mergeExtras (ex ++ [p]) rest := by
      rw [mergeExtras, List.foldl_cons, setExtra_of_not_mem ex p.1 p.2 hp]
      rfl
    rw [step, ih (ex ++ [p]) ?_ hnodup.2, List.append_assoc, List.singleton_append]
    intro q hq
    simp only [List.map_append, List.mem_append, List.map_cons, List.map_nil,
      List.mem_singleton]
    push_neg
    refine ⟨hdisj q (List.mem_cons_of_mem p hq), ?_⟩
    intro hqp
    exact hnodup.1 (hqp ▸ List.mem_map_of_mem Prod.fst hq)

end Moses

/-- C3: if two members both return a candidate under the same key, each
with its own named extra score-cache entries (distinct names across and
within the incoming set), the single merged entry in the result carries
the union of both members extra entries, alongside the merged score
vector. -/
theorem claim3_extra_score_union (r : Bool) (d : List ℚ) (k0 k1 : Nat)
    (c0 c1 : Moses.Candidate) (hkey : c1.key = c0.key)
    (hdisj : ∀ p ∈ c1.extras, p.1 ∉ c0.extras.map Prod.fst)
    (hnodup : (c1.extras.map Prod.fst).Nodup) :
    Moses.createTargetPhraseCollection r d [⟨k0, some [c0]⟩, ⟨k1, some [c1]⟩]
      = [(c0.key, ⟨c0.extras ++ c1.extras,
           Moses.writeSegment (Moses.writeSegment d 0 k0 c0.scores) k0 k1 c1.scores⟩)] := by
  have h0 : Moses.processCandidate r d 0 0 k0 [] c0
      = [(c0.key, ⟨c0.extras, Moses.writeSegment d 0 k0 c0.scores⟩)] := by
    rw [Moses.processCandidate]
    simp [Moses.findEntry]
  have hfind : Moses.findEntry
      [(c0.key, ⟨c0.extras, Moses.writeSegment d 0 k0 c0.scores⟩)] c0.key
      = some ⟨c0.extras, Moses.writeSegment d 0 k0 c0.scores⟩ := by
    rw [Moses.findEntry, if_pos rfl]
  simp only [Moses.createTargetPhraseCollection, Moses.runMembers,
    Moses.processMember, List.foldl_cons, List.foldl_nil, Nat.zero_add, h0]
  rw [Moses.processCandidate.eq_def]
  simp only [Moses.updateEntry, List.map_cons, List.map_nil, if_pos rfl, hkey,
    Moses.mergeExtras_of_disjoint c0.extras c1.extras hdisj hnodup, hfind]
  simp

/-- Witness for C3: members 0 and 1 both return key "x", member 0 with
extra entry "a" and member 1 with extra entry "b"; the merged entry holds
both. -/
theorem claim3_extra_score_union_witness :
    Moses.createTargetPhraseCollection false [0, 0]
        [⟨1, some [⟨"x", [1], [("a", [1])]⟩]⟩, ⟨1, some [⟨"x", [2], [("b", [2])]⟩]⟩]
      = [("x", ⟨[("a", [1]), ("b", [2])],
           Moses.writeSegment (Moses.writeSegment [0, 0] 0 1 [1]) 1 1 [2]⟩)] :=
  claim3_extra_score_union false [0, 0] 1 1
    ⟨"x", [1], [("a", [1])]⟩ ⟨"x", [2], [("b", [2])]⟩ rfl
    (by decide) (by decide)

namespace Moses

theorem writeSegment_succ (vec : List ℚ) (offset ki : Nat) (raw : List ℚ) :
    writeSegment vec offset (ki + 1) raw
      = (writeSegment vec offset ki raw).set (offset + ki) (raw.getD ki 0) := by
  rw [writeSegment, writeSegment, List.range_succ, List.foldl_append,
    List.foldl_cons, List.foldl_nil]

theorem length_writeSegment (vec : List ℚ) (offset ki : Nat) (raw : List ℚ) :
    (writeSegment vec offset ki raw).length = vec.length := by
  induction ki with
  | zero => rfl
  | succ n ih => rw [writeSegment_succ, List.length_set, ih]

theorem writeSegment_getD_inside (vec : List ℚ) (offset ki : Nat)
    (raw : List ℚ) (j : Nat) (hj : j < ki) (hlen : offset + ki ≤ vec.length) :
    (writeSegment vec offset ki raw).getD (offset + j) 0 = raw.getD j 0 := by
  induction ki with
  | zero => omega
  | succ n ih =>
    rw [writeSegment_succ]
    by_cases h : j = n
    · subst h
      rw [List.getD_eq_getElem?_getD, List.getElem?_set_self ?_, Option.getD_some]
      rw [length_writeSegment]
      omega
    · rw [List.getD_eq_getElem?_getD, List.getElem?_set_ne (by omega),
        ← List.getD_eq_getElem?_getD, ih (by omega) (by omega)]

theorem writeSegment_getD_outside (vec : List ℚ) (offset ki : Nat)
    (raw : List ℚ) (p : Nat) (hp : p < offset ∨ offset + ki ≤ p) :
    (writeSegment vec offset ki raw).getD p 0 = vec.getD p 0 := by
  induction ki with
  | zero => rfl
  | succ n ih =>
    rw [writeSegment_succ, List.getD_eq_getElem?_getD,
      List.getElem?_set_ne (by omega), ← List.getD_eq_getElem?_getD,
      ih (by omega)]

theorem runMembers_append (r : Bool) (d : List ℚ) (pre post : List Member)
    (i offset : Nat) (st : PhraseMap) :
    runMembers r d (pre ++ post) i offset st
      = runMembers r d post (i + pre.length) (offset + sumK pre)
          (runMembers r d pre i offset st) := by
  induction pre generalizing i offset st with
  | nil => simp [runMembers, sumK]
  | cons m rest ih =>
    rw [List.cons_append, runMembers, runMembers, ih]
    have e1 : i + 1 + rest.length = i + (m :: rest).length := by
      simp only [List.length_cons]
      omega
    have e2 : offset + m.numScoreComponents + sumK rest
        = offset + sumK (m :: rest) := by
      simp only [sumK, List.map_cons, List.sum_cons]
      omega
    rw [e1, e2]

end Moses

/-- C4: within one lookup call, member models are consulted in configured
order with a running offset: the member standing after the prefix `pre` is
consulted with index `pre.length` and raw-score segment starting at
`Σ K_j` over `pre`, the members after it start at that offset advanced by
its own component count; a member returning no candidates (a NULL result
or an empty list) leaves the pending set untouched while still advancing
the offset; and the segment write puts `raw[j]` at position `offset + j`
for `j < K_i` leaving every position outside `[offset, offset + K_i)`
unchanged. -/
theorem claim4_member_order_and_offsets :
    (∀ (r : Bool) (d : List ℚ) (pre post : List Moses.Member) (m : Moses.Member),
        Moses.createTargetPhraseCollection r d (pre ++ m :: post)
          = Moses.runMembers r d post (pre.length + 1)
              (Moses.sumK pre + m.numScoreComponents)
              (Moses.processMember r d pre.length (Moses.sumK pre) m
                 (Moses.runMembers r d pre 0 0 []))) ∧
    (∀ (r : Bool) (d : List ℚ) (i offset ki : Nat) (st : Moses.PhraseMap),
        Moses.processMember r d i offset ⟨ki, none⟩ st = st ∧
        Moses.processMember r d i offset ⟨ki, some []⟩ st = st) ∧
    (∀ (vec : List ℚ) (offset ki : Nat) (raw : List ℚ),
        (Moses.writeSegment vec offset ki raw).length = vec.length ∧
        (∀ j, j < ki → offset + ki ≤ vec.length →
            (Moses.writeSegment vec offset ki raw).getD (offset + j) 0
              = raw.getD j 0) ∧
        (∀ p, p < offset ∨ offset + ki ≤ p →
            (Moses.writeSegment vec offset ki raw).getD p 0 = vec.getD p 0)) := by
  refine ⟨?_, ?_, ?_⟩
  · intro r d pre post m
    rw [Moses.createTargetPhraseCollection, Moses.runMembers_append,
      Moses.runMembers, Nat.zero_add, Nat.zero_add, Nat.add_comm pre.length 1]
  · intro r d i offset ki st
    exact ⟨rfl, rfl⟩
  · intro vec offset ki raw
    exact ⟨Moses.length_writeSegment vec offset ki raw,
      fun j hj hlen => Moses.writeSegment_getD_inside vec offset ki raw j hj hlen,
      fun p hp => Moses.writeSegment_getD_outside vec offset ki raw p hp⟩

/-- Witness for C4 at concrete inputs: a three-member configuration where
the middle member returns NULL, the explicit offset decomposition, the
no-candidate no-ops, and the segment-write positions. -/
theorem claim4_member_order_and_offsets_witness :
    Moses.createTargetPhraseCollection false [0, 0, 0]
        ([⟨1, some []⟩] ++ ⟨1, none⟩ :: [⟨1, some [⟨"x", [7], []⟩]⟩])
      = Moses.runMembers false [0, 0, 0] [⟨1, some [⟨"x", [7], []⟩]⟩] 2 2
          (Moses.processMember false [0, 0, 0] 1 1 ⟨1, none⟩
             (Moses.runMembers false [0, 0, 0] [⟨1, some []⟩] 0 0 [])) ∧
    Moses.processMember false [0, 0, 0] 1 1 ⟨1, none⟩ [] = [] ∧
    (Moses.writeSegment [0, 0, 0] 1 1 [5]).getD 1 0 = ([(5 : ℚ)].getD 0 0) ∧
    (Moses.writeSegment [0, 0, 0] 1 1 [5]).getD 0 0 = ([0, 0, 0].getD 0 (0 : ℚ)) :=
  ⟨claim4_member_order_and_offsets.1 false [0, 0, 0] [⟨1, some []⟩]
      [⟨1, some [⟨"x", [7], []⟩]⟩] ⟨1, none⟩,
    (claim4_member_order_and_offsets.2.1 false [0, 0, 0] 1 1 1 []).1,
    (claim4_member_order_and_offsets.2.2 [0, 0, 0] 1 1 [5]).2.1 0 (by decide)
      (by decide),
    (claim4_member_order_and_offsets.2.2 [0, 0, 0] 1 1 [5]).2.2 0
      (Or.inl (by decide))⟩

namespace Moses

theorem filter_description_eq_nil (coll : List RegisteredPD) (n : String)
    (habs : ∀ pd ∈ coll, pd.description ≠ n) :
    coll.filter (fun pd => pd.description == n) = [] :=
  List.filter_eq_nil_iff.mpr fun pd hpd => by
    simp only [beq_iff_eq]
    exact habs pd hpd

theorem length_filter_description_le_one (coll : List RegisteredPD) (n : String)
    (hnodup : (coll.map RegisteredPD.description).Nodup) :
    (coll.filter (fun pd => pd.description == n)).length ≤ 1 := by
  induction coll with
  | nil => simp
  | cons pd rest ih =>
    simp only [List.map_cons, List.nodup_cons] at hnodup
    by_cases h : pd.description == n
    · have hrest : rest.filter (fun q => q.description == n) = [] := by
        apply filter_description_eq_nil
        intro q hq hqn
        apply hnodup.1
        have hpd : pd.description = q.description := by
          rw [eq_of_beq h, hqn]
        rw [hpd]
        exact List.mem_map_of_mem RegisteredPD.description hq
      simp [List.filter_cons, h, hrest]
    · simp only [List.filter_cons, h, if_false, Bool.false_eq_true]
      exact ih hnodup.2

theorem resolveMembers_length (coll : List RegisteredPD) (names : List String)
    (ms : List RegisteredPD) (hok : resolveMembers coll names = .ok ms)
    (hnodup : (coll.map RegisteredPD.description).Nodup) :
    ms.length = names.length := by
  induction names generalizing ms with
  | nil =>
    rw [resolveMembers] at hok
    cases hok
    rfl
  | cons n rest ih =>
    rw [resolveMembers] at hok
    by_cases hempty : (coll.filter (fun pd => pd.description == n)).isEmpty
    · rw [if_pos hempty] at hok
      cases hok
    · rw [if_neg hempty] at hok
      cases hrec : resolveMembers coll rest with
      | error e =>
        rw [hrec] at hok
        cases hok
      | ok ms' =>
        rw [hrec] at hok
        cases hok
        have h1 : (coll.filter (fun pd => pd.description == n)).length ≤ 1 :=
          length_filter_description_le_one coll n hnodup
        have h2 : (coll.filter (fun pd => pd.description == n)).length ≠ 0 := by
          intro hz
          exact hempty (List.isEmpty_iff.mpr (List.length_eq_zero.mp hz))
      
        simp only [List.length_append, List.length_cons, ih ms' hrec]
        omega

theorem resolveMembers_missing (coll : List RegisteredPD) (names : List String)
    (n : String) (hm : n ∈ names) (habs : ∀ pd ∈ coll, pd.description ≠ n) :
    ∃ msg, resolveMembers coll names = .error msg := by
  induction names with
  | nil => cases hm
  | cons n' rest ih =>
    by_cases hempty : (coll.filter (fun pd => pd.description == n')).isEmpty
    · exact ⟨_, by rw [resolveMembers, if_pos hempty]⟩
    · rcases List.mem_cons.mp hm with h | h
      · exfalso
        apply hempty
        rw [← h, filter_description_eq_nil coll n habs]
        rfl
      · rcases ih h with ⟨msg, hmsg⟩
        refine ⟨msg, ?_⟩
        rw [resolveMembers, if_neg hempty, hmsg]

end Moses

/-- C5: at load time each configured member name is resolved by exact
description match; with a registry whose descriptions are distinct (as
the surrounding engine guarantees for feature functions), a successful
load resolves exactly one instance per configured name, so the resolved
member count equals the configured name count; and if some configured
name matches no registered dictionary, Load raises a configuration
error. -/
theorem claim5_member_resolution :
    (∀ (coll : List Moses.RegisteredPD) (p : Moses.GroupParams)
        (g : Moses.LoadedGroup),
        (coll.map Moses.RegisteredPD.description).Nodup →
        Moses.Load coll p = .ok g →
        g.memberPDs.length = p.memberPDStrs.length) ∧
    (∀ (coll : List Moses.RegisteredPD) (p : Moses.GroupParams) (n : String),
        n ∈ p.memberPDStrs → (∀ pd ∈ coll, pd.description ≠ n) →
        ∃ msg, Moses.Load coll p = .error msg) := by
  constructor
  · intro coll p g hnodup hok
    cases hres : Moses.resolveMembers coll p.memberPDStrs with
    | error e =>
      simp only [Moses.Load, hres] at hok
      cases hok
    | ok ms =>
      simp only [Moses.Load, hres] at hok
      have hg : g.memberPDs = ms := by
        by_cases hsum : (ms.map Moses.RegisteredPD.numScoreComponents).sum
            = p.numScoreComponents
        · rw [if_neg (fun hne => hne hsum)] at hok
          by_cases hhave : p.haveDefaultScores = true
          · rw [if_pos hhave] at hok
            by_cases hlen : p.defaultScores.length = p.numScoreComponents
            · rw [if_neg (fun hne => hne hlen)] at hok
              cases hok
              rfl
            · rw [if_pos hlen] at hok
              cases hok
          · rw [if_neg hhave] at hok
            cases hok
            rfl
        · rw [if_pos hsum] at hok
          cases hok
      rw [hg]
      exact Moses.resolveMembers_length coll p.memberPDStrs ms hres hnodup
  · intro coll p n hm habs
    rcases Moses.resolveMembers_missing coll p.memberPDStrs n hm habs with ⟨msg, hmsg⟩
    exact ⟨msg, by rw [Moses.Load, hmsg]⟩

/-- Witness for C5: resolving names "A", "B" against a two-entry registry
yields two members for two names, and the unresolved name "C" makes Load
fail. -/
theorem claim5_member_resolution_witness :
    ((⟨[⟨"A", 1⟩, ⟨"B", 2⟩], [0, 0, 0]⟩ : Moses.LoadedGroup).memberPDs.length
        = (["A", "B"] : List String).length) ∧
    ∃ msg, Moses.Load [⟨"A", 1⟩] ⟨["C"], 1, false, false, []⟩ = .error msg :=
  ⟨claim5_member_resolution.1 [⟨"A", 1⟩, ⟨"B", 2⟩]
      ⟨["A", "B"], 3, false, false, []⟩ ⟨[⟨"A", 1⟩, ⟨"B", 2⟩], [0, 0, 0]⟩
      (by decide) (by rfl),
    claim5_member_resolution.2 [⟨"A", 1⟩] ⟨["C"], 1, false, false, []⟩ "C"
      (by decide) (by decide)⟩

/-- C6: a successful load implies that the resolved members
score-component counts sum exactly to the separately configured expected
total width, and whenever the resolved sum differs from the expected
width, Load raises a configuration error and no loaded engine state is
produced. -/
theorem claim6_total_width_validation :
    (∀ (coll : List Moses.RegisteredPD) (p : Moses.GroupParams)
        (g : Moses.LoadedGroup),
        Moses.Load coll p = .ok g →
        (g.memberPDs.map Moses.RegisteredPD.numScoreComponents).sum
          = p.numScoreComponents) ∧
    (∀ (coll : List Moses.RegisteredPD) (p : Moses.GroupParams)
        (ms : List Moses.RegisteredPD),
        Moses.resolveMembers coll p.memberPDStrs = .ok ms →
        (ms.map Moses.RegisteredPD.numScoreComponents).sum ≠ p.numScoreComponents →
        ∃ msg, Moses.Load coll p = .error msg) := by
  constructor
  · intro coll p g hok
    cases hres : Moses.resolveMembers coll p.memberPDStrs with
    | error e =>
      simp only [Moses.Load, hres] at hok
      cases hok
    | ok ms =>
      simp only [Moses.Load, hres] at hok
      by_cases hsum : (ms.map Moses.RegisteredPD.numScoreComponents).sum
          = p.numScoreComponents
      · have hg : g.memberPDs = ms := by
          rw [if_neg (fun hne => hne hsum)] at hok
          by_cases hhave : p.haveDefaultScores = true
          · rw [if_pos hhave] at hok
            by_cases hlen : p.defaultScores.length = p.numScoreComponents
            · rw [if_neg (fun hne => hne hlen)] at hok
              cases hok
              rfl
            · rw [if_pos hlen] at hok
              cases hok
          · rw [if_neg hhave] at hok
            cases hok
            rfl
        rw [hg]
        exact hsum
      · rw [if_pos hsum] at hok
        cases hok
  · intro coll p ms hres hsum
    refine ⟨"Total number of member model scores is unequal to specified number of scores", ?_⟩
    simp only [Moses.Load, hres]
    rw [if_pos hsum]

/-- Witness for C6: a load over members with counts 1 and 2 against
expected width 3 succeeds with total 3 (Scenario A shape), and Scenario D
with expected width 5 against members summing to 4 fails. -/
theorem claim6_total_width_validation_witness :
    ((([⟨"A", 1⟩, ⟨"B", 2⟩] : List Moses.RegisteredPD).map
        Moses.RegisteredPD.numScoreComponents).sum = (3 : Nat)) ∧
    ∃ msg, Moses.Load [⟨"A", 2⟩, ⟨"B", 2⟩] ⟨["A", "B"], 5, false, false, []⟩
        = .error msg :=
  ⟨claim6_total_width_validation.1 [⟨"A", 1⟩, ⟨"B", 2⟩]
      ⟨["A", "B"], 3, false, false, []⟩ ⟨[⟨"A", 1⟩, ⟨"B", 2⟩], [0, 0, 0]⟩
      (by rfl),
    claim6_total_width_validation.2 [⟨"A", 2⟩, ⟨"B", 2⟩]
      ⟨["A", "B"], 5, false, false, []⟩ [⟨"A", 2⟩, ⟨"B", 2⟩] (by rfl) (by decide)⟩

namespace Moses

theorem runMembers_empty_members (r : Bool) (d : List ℚ) (ms : List Member)
    (i offset : Nat) (st : PhraseMap)
    (h : ∀ m ∈ ms, m.result = none ∨ m.result = some []) :
    runMembers r d ms i offset st = st := by
  induction ms generalizing i offset st with
  | nil => rfl
  | cons m rest ih =>
    rw [runMembers]
    have hm : processMember r d i offset m st = st := by
      rcases h m (List.mem_cons_self m rest) with hr | hr <;>
        simp [processMember, hr]
    rw [hm, ih (i + 1) (offset + m.numScoreComponents) st
      (fun q hq => h q (List.mem_cons_of_mem m hq))]

end Moses

/-- C7: the legacy lookup entry point without a processing context fails
unconditionally with a fatal programmer error, for every source phrase
and every cache state: it never returns a candidate list and never
produces a mutated cache. -/
theorem claim7_no_context_lookup_always_fails :
    ∀ (src : String) (cache : Moses.PhraseCache),
      Moses.getTargetPhraseCollectionLEGACYNoContext src cache
        = .error "Dont call me without the translation task." :=
  fun _ _ => rfl

/-- C8: sentence cleanup is idempotent and safe on an empty cache: from
any cache state, one call empties the cache and invokes the member
cleanup hooks on members 0 .. N-1 in configured order, and a second call
on the resulting state does exactly the same, leaving the cache empty
both times. -/
theorem claim8_cleanup_idempotent_and_propagating :
    ∀ (n : Nat) (cache : Moses.PhraseCache),
      Moses.cleanUpAfterSentenceProcessing n cache
        = (([] : Moses.PhraseCache), List.range n) ∧
      Moses.cleanUpAfterSentenceProcessing n
          (Moses.cleanUpAfterSentenceProcessing n cache).1
        = (([] : Moses.PhraseCache), List.range n) ∧
      (Moses.cleanUpAfterSentenceProcessing n cache).2
        = Moses.cleanUpComponentModels n :=
  fun _ _ => ⟨rfl, rfl, rfl⟩

/-- C9: constructing the lazy per-sentence grammar loader
(`PhraseDictionaryALSuffixArray`) with more than one configured worker
thread fails immediately with a configuration error, before any grammar
is loaded (loading happens only later, in `InitializeForInput`); with one
worker (and no leftover arguments) construction succeeds. -/
theorem claim9_suffix_array_thread_check :
    (∀ (threadCount numLeftoverArgs : Nat), threadCount > 1 →
        Moses.constructALSuffixArray threadCount numLeftoverArgs
          = .error "Suffix array implementation is not threadsafe") ∧
    Moses.constructALSuffixArray 1 0 = .ok () := by
  constructor
  · intro tc args htc
    simp [Moses.constructALSuffixArray, htc]
  · rfl

/-- Witness for C9: worker concurrency 4 (Scenario E) raises the error. -/
theorem claim9_suffix_array_thread_check_witness :
    Moses.constructALSuffixArray 4 0
      = .error "Suffix array implementation is not threadsafe" :=
  claim9_suffix_array_thread_check.1 4 0 (by decide)

/-- C10: the context-taking lookup always returns a non-NULL candidate
list and registers that same list with the sentence cache before
returning; in particular, when every member model returns no candidates
(a NULL collection or an empty one), the returned list is non-NULL,
empty, and still cached. -/
theorem claim10_context_lookup_caches_nonnull :
    (∀ (r : Bool) (d : List ℚ) (ms : List Moses.Member) (tl : Nat)
        (cache : Moses.PhraseCache),
        ∃ l, Moses.getTargetPhraseCollectionLEGACYWithContext r d ms tl cache
          = (some l, cache ++ [l])) ∧
    (∀ (r : Bool) (d : List ℚ) (ms : List Moses.Member) (tl : Nat)
        (cache : Moses.PhraseCache),
        (∀ m ∈ ms, m.result = none ∨ m.result = some []) →
        Moses.getTargetPhraseCollectionLEGACYWithContext r d ms tl cache
          = (some [], cache ++ [([] : Moses.ResultList)])) := by
  constructor
  · intro r d ms tl cache
    exact ⟨_, rfl⟩
  · intro r d ms tl cache h
    have hempty : Moses.createTargetPhraseCollection r d ms = [] :=
      Moses.runMembers_empty_members r d ms 0 0 [] h
    simp [Moses.getTargetPhraseCollectionLEGACYWithContext, Moses.nthElement,
      Moses.cacheForCleanup, hempty]

/-- Witness for C10: two members, one NULL result and one empty result,
over a nonempty cache: the lookup returns a non-NULL empty list and
appends it to the cache. -/
theorem claim10_context_lookup_caches_nonnull_witness :
    Moses.getTargetPhraseCollectionLEGACYWithContext false [0, 0]
        [⟨2, none⟩, ⟨1, some []⟩] 20 [[("z", ⟨[], [1]⟩)]]
      = (some [], [[("z", ⟨[], [1]⟩)], []]) :=
  claim10_context_lookup_caches_nonnull.2 false [0, 0]
    [⟨2, none⟩, ⟨1, some []⟩] 20 [[("z", ⟨[], [1]⟩)]] (by decide)
